import Mathlib

/-!
Verification of the Shankh.ai RAG service core (ingestion chunker, FAISS-backed
retrieval server) against its natural-language specification.

The Python sources are shallowly embedded:
* text is `List Char` (Python strings are sequences of code points),
* Python slice / `str.rfind` index normalization (negative indices wrap,
  everything clamps to `[0, len]`) is modelled exactly,
* the `while` loop of `PDFIngestionPipeline.chunk_text` is modelled with
  explicit fuel, `none` meaning the loop did not finish within the fuel,
* scores are `ℚ` (exact stand-in for the float inner products),
* the FastAPI layer is modelled as total functions over explicit state.
-/

/-! ## Python string primitives -/

/-- Python whitespace characters recognised by `str.strip` (ASCII range,
which covers every character the service's sources can feed it). -/
def isPySpace (c : Char) : Bool :=
  c = ' ' || c = '\t' || c = '\n' || c = '\r' || c = '\x0b' || c = '\x0c'

/-- Python index normalization for slices: a negative index counts from the
end of the string, and everything is clamped to `[0, n]`. -/
def pyNormIdx (n : ℕ) (i : ℤ) : ℕ :=
  if i < 0 then (max 0 ((n : ℤ) + i)).toNat else min i.toNat n

/-- Python slice `s[i:j]`. -/
def pySlice (s : List Char) (i j : ℤ) : List Char :=
  let lo := pyNormIdx s.length i
  let hi := pyNormIdx s.length j
  (s.drop lo).take (hi - lo)

/-- Python `str.strip()`: drop leading and trailing whitespace. -/
def pyStrip (s : List Char) : List Char :=
  ((s.dropWhile isPySpace).reverse.dropWhile isPySpace).reverse

/-- Whether `pat` occurs in `s` starting at position `p`. -/
def matchAt (s pat : List Char) (p : ℕ) : Bool :=
  (s.drop p).take pat.length == pat

/-- Candidate match positions for `rfind` within normalized bounds `[lo, hi]`. -/
def pyRfindCands (s pat : List Char) (lo hi : ℕ) : List ℕ :=
  (List.range (hi + 1)).filter
    (fun p => decide (lo ≤ p) && decide (p + pat.length ≤ hi) && matchAt s pat p)

/-- Python `s.rfind(pat, i, j)`: the greatest `p` with
`norm i ≤ p`, `p + len pat ≤ norm j` and `pat` matching at `p`; `-1` if none. -/
def pyRfind (s pat : List Char) (i j : ℤ) : ℤ :=
  ((pyRfindCands s pat (pyNormIdx s.length i) (pyNormIdx s.length j)).map
    (fun p : ℕ => (p : ℤ))).foldl max (-1)

/-! ## The chunker (`PDFIngestionPipeline.chunk_text`, ingest.py lines 152-213) -/

/-- A text chunk with provenance metadata (class `DocumentChunk`, ingest.py). -/
structure DocumentChunk where
  text : List Char
  filename : String
  page_num : ℕ
  chunk_id : ℕ
  char_start : ℤ
  char_end : ℤ
  excerpt : List Char
  deriving DecidableEq, Repr, Inhabited

/-- `DocumentChunk.__init__`: excerpt is the first 100 characters plus an
ellipsis when the text is longer than 100 characters. -/
def mkExcerpt (t : List Char) : List Char :=
  if 100 < t.length then t.take 100 ++ ('.' :: '.' :: '.' :: []) else t

/-- `max(sentence_ends)` over the five configured terminator searches
(ingest.py lines 179-186). -/
def sentenceEnd (text : List Char) (searchStart e : ℤ) : ℤ :=
  max (pyRfind text ['.', ' '] searchStart e)
    (max (pyRfind text ['।', ' '] searchStart e)
      (max (pyRfind text ['?', ' '] searchStart e)
        (max (pyRfind text ['!', ' '] searchStart e)
          (pyRfind text ['\n', '\n'] searchStart e))))

/-- One window-edge computation of `chunk_text` (ingest.py lines 172-189):
the provisional edge is `start + chunk_size`; if it falls strictly before the
end of the text, look back up to 100 characters for the rightmost sentence
terminator and, when it lies strictly after `start`, move the edge to one past
the terminator's first character. -/
def computeEnd (text : List Char) (chunkSize : ℕ) (start : ℤ) : ℤ :=
  if start + chunkSize < (text.length : ℤ) then
    if sentenceEnd text (max start (start + chunkSize - 100)) (start + chunkSize) > start then
      sentenceEnd text (max start (start + chunkSize - 100)) (start + chunkSize) + 1
    else start + chunkSize
  else start + chunkSize

/-- The chunk `chunk_text` emits for the window starting at `start`: the
stripped slice `text[start:end].strip()` with its provenance fields
(ingest.py lines 191-203). -/
def mkChunk (text : List Char) (chunkSize : ℕ) (filename : String) (page : ℕ)
    (cid : ℕ) (start : ℤ) : DocumentChunk :=
  { text := pyStrip (pySlice text start (computeEnd text chunkSize start))
    filename := filename, page_num := page, chunk_id := cid
    char_start := start, char_end := computeEnd text chunkSize start
    excerpt := mkExcerpt (pyStrip (pySlice text start (computeEnd text chunkSize start))) }

/-- The `while` loop of `chunk_text` (ingest.py lines 171-211), with explicit
fuel; `none` means the loop did not finish within the given fuel.  The loop
emits a chunk only when the stripped slice is longer than 50 characters, then
advances `start` to `end - overlap` and breaks once
`start >= text_len - overlap`. -/
def chunk_text_loop (text : List Char) (chunkSize overlap : ℕ)
    (filename : String) (page : ℕ) :
    ℕ → ℤ → ℕ → Option (List DocumentChunk)
  | 0, _, _ => none
  | fuel + 1, start, cid =>
    if start < (text.length : ℤ) then
      if 50 < (pyStrip (pySlice text start (computeEnd text chunkSize start))).length then
        if computeEnd text chunkSize start - overlap ≥ (text.length : ℤ) - overlap then
          some [mkChunk text chunkSize filename page cid start]
        else
          (chunk_text_loop text chunkSize overlap filename page fuel
              (computeEnd text chunkSize start - overlap) (cid + 1)).map
            (mkChunk text chunkSize filename page cid start :: ·)
      else
        if computeEnd text chunkSize start - overlap ≥ (text.length : ℤ) - overlap then
          some []
        else
          chunk_text_loop text chunkSize overlap filename page fuel
            (computeEnd text chunkSize start - overlap) cid
    else some []

/-- `PDFIngestionPipeline.chunk_text` (ingest.py lines 152-213). -/
def chunk_text (chunkSize overlap : ℕ) (text : List Char) (filename : String)
    (page : ℕ) (chunkOffset : ℕ) (fuel : ℕ) : Option (List DocumentChunk) :=
  chunk_text_loop text chunkSize overlap filename page fuel 0 chunkOffset

/-- `PDFIngestionPipeline.process_pdfs` (ingest.py lines 215-256) after text
extraction: iterate over the extracted `(filename, page_number, page_text)`
records in order, chunking each with the running `chunk_id_offset`, which grows
by the number of chunks the page produced. -/
def process_pdfs (chunkSize overlap : ℕ) (fuel : ℕ) :
    List (String × ℕ × List Char) → ℕ → Option (List DocumentChunk)
  | [], _ => some []
  | (fn, pg, txt) :: rest, offset =>
    match chunk_text chunkSize overlap txt fn pg offset fuel with
    | none => none
    | some cs =>
      (process_pdfs chunkSize overlap fuel rest (offset + cs.length)).map (cs ++ ·)

/-! ## The retrieval server (server.py)

Scores are `ℚ`, an exact stand-in for the float inner products: every claim
proved below concerns ordering, filtering and counting, none of which depends
on the numeric representation. -/

/-- Inner product of two vectors. -/
def dot (a b : List ℚ) : ℚ := (List.zipWith (· * ·) a b).sum

/-- Result ordering used by the search: higher score first, exact score ties
by ascending row index. -/
def hitLE (a b : ℤ × ℚ) : Prop := b.2 < a.2 ∨ (a.2 = b.2 ∧ a.1 ≤ b.1)

instance : DecidableRel hitLE := fun a b => by
  unfold hitLE; infer_instance

instance : IsTotal (ℤ × ℚ) hitLE where
  total a b := by
    rcases lt_trichotomy a.2 b.2 with h | h | h
    · exact Or.inr (Or.inl h)
    · rcases le_total a.1 b.1 with h1 | h1
      · exact Or.inl (Or.inr ⟨h, h1⟩)
      · exact Or.inr (Or.inr ⟨h.symm, h1⟩)
    · exact Or.inl (Or.inl h)

instance : IsTrans (ℤ × ℚ) hitLE where
  trans a b c hab hbc := by
    rcases hab with h1 | ⟨h1, h1'⟩ <;> rcases hbc with h2 | ⟨h2, h2'⟩
    · exact Or.inl (h2.trans h1)
    · exact Or.inl (h2 ▸ h1)
    · exact Or.inl (h1 ▸ h2)
    · exact Or.inr ⟨h1.trans h2, h1'.trans h2'⟩

/-- Modelled from the spec: `faiss.IndexFlatIP.search` is an external library
call (the FAISS index built by `build_faiss_index`, ingest.py lines 284-304,
holds one row per chunk in ordinal order).  Per the spec it performs exact
top-`min(k, N)` search by inner product, "descending by score ... ties broken
by ascending ordinal", and pads with index `-1` when `k` exceeds the number of
stored vectors ("FAISS returns -1 for missing results", server.py line 331). -/
def faiss_search (rows : List (List ℚ)) (q : List ℚ) (k : ℕ) : List (ℤ × ℚ) :=
  let scored := (List.range rows.length).map (fun (i : ℕ) => ((i : ℤ), dot q (rows.getD i [])))
  (List.insertionSort hitLE scored).take k ++
    List.replicate (k - rows.length) ((-1 : ℤ), 0)

/-- One entry of the `/retrieve` response (class `DocumentResult`, server.py). -/
structure DocumentResult where
  chunk_id : ℕ
  filename : String
  page_num : ℕ
  text : List Char
  excerpt : List Char
  score : ℚ
  char_start : ℤ
  char_end : ℤ
  deriving DecidableEq, Repr

/-- Build one `DocumentResult` from the metadata record and the hit score
(server.py lines 341-350). -/
def mkResult (cd : DocumentChunk) (score : ℚ) : DocumentResult :=
  { chunk_id := cd.chunk_id, filename := cd.filename, page_num := cd.page_num
    text := cd.text, excerpt := cd.excerpt, score := score
    char_start := cd.char_start, char_end := cd.char_end }

/-- The result-building loop of `retrieve` (server.py lines 329-351): walk the
search hits in order, skip the `-1` padding, look the ordinal up in the
metadata array, and skip entries below the threshold when one was given. -/
def build_results (metadata : List DocumentChunk) (threshold : Option ℚ) :
    List (ℤ × ℚ) → List DocumentResult
  | [] => []
  | (i, s) :: rest =>
    if i = -1 then build_results metadata threshold rest
    else
      match threshold with
      | some t =>
        if s < t then build_results metadata threshold rest
        else mkResult (metadata.getD i.toNat default) s :: build_results metadata threshold rest
      | none => mkResult (metadata.getD i.toNat default) s :: build_results metadata threshold rest

/-- The retrieval core of the `/retrieve` handler (server.py lines 319-351):
search the index with the caller's `k`, then build the filtered result list. -/
def retrieve_results (metadata : List DocumentChunk) (rows : List (List ℚ))
    (qvec : List ℚ) (k : ℕ) (threshold : Option ℚ) : List DocumentResult :=
  build_results metadata threshold (faiss_search rows qvec k)

/-! ### Server state, startup and the endpoint gate (server.py) -/

/-- The metadata record pickled by `save_index` (ingest.py lines 324-334). -/
structure IngestMetadata where
  chunks : List DocumentChunk
  embedding_model : String
  embedding_dim : ℕ
  chunk_size : ℕ
  chunk_overlap : ℕ
  num_chunks : ℕ
  deriving DecidableEq, Repr

/-- The environment `startup_event` runs in: which files exist on disk, their
contents, and the embedding model the server is configured to load. -/
structure LoadEnv where
  indexDirExists : Bool
  indexFile : Option (List (List ℚ))
  metadataFile : Option IngestMetadata
  modelLoads : Bool
  modelDim : ℕ
  configModelName : String
  deriving Repr

/-- Global server state (class `ServerState`, server.py lines 141-152). -/
structure ServerState where
  indexRows : Option (List (List ℚ)) := none
  metadata : Option IngestMetadata := none
  modelDim : Option ℕ := none
  ready : Bool := false
  deriving Repr

/-- `load_embedding_model` (server.py lines 208-213): loads the configured
sentence-transformer; fails only when the backend fails. -/
def load_embedding_model (env : LoadEnv) (st : ServerState) : Except String ServerState :=
  if env.modelLoads then .ok { st with modelDim := some env.modelDim }
  else .error "model load failed"

/-- `load_index_and_metadata` (server.py lines 172-205): requires the index
directory, the FAISS index file and the metadata file to exist; a stored
embedding-model name differing from the configured one only prints a warning,
and no dimension comparison is performed. -/
def load_index_and_metadata (env : LoadEnv) (st : ServerState) : Except String ServerState :=
  if ¬env.indexDirExists then .error "Index directory not found"
  else
    match env.indexFile with
    | none => .error "FAISS index file not found"
    | some rows =>
      match env.metadataFile with
      | none => .error "Metadata file not found"
      | some md => .ok { st with indexRows := some rows, metadata := some md }

/-- `startup_event` (server.py lines 230-251): run the loaders in order and
set `ready` only when all succeed; any exception propagates (fatal). -/
def startup_event (env : LoadEnv) : Except String ServerState :=
  (load_embedding_model env {}).bind (fun st1 =>
    (load_index_and_metadata env st1).map (fun st2 => { st2 with ready := true }))

/-- Request schema for `/retrieve` (class `RetrievalRequest`, server.py lines
82-95), before validation: any JSON-decodable field values. -/
structure RetrievalRequest where
  query : String
  k : ℤ := 5
  lang_hint : Option String := none
  threshold : Option ℚ := none
  deriving DecidableEq, Repr

/-- Response schema for `/retrieve` (server.py lines 110-116), restricted to
the fields the claims are about. -/
structure RetrievalResponse where
  query : String
  results : List DocumentResult
  num_results : ℕ
  deriving DecidableEq, Repr

/-- Pydantic field validation of `RetrievalRequest` (server.py lines 82-95):
`query` has `min_length=1`, `k` has `ge=1, le=50`, `threshold` (when given)
has `ge=0.0, le=1.0`.  FastAPI rejects the request with a 422 validation
error before the handler body runs when any constraint fails. -/
def validate_retrieval_request (r : RetrievalRequest) : Bool :=
  decide (1 ≤ r.query.length) && decide (1 ≤ r.k) && decide (r.k ≤ 50) &&
    (match r.threshold with
     | none => true
     | some t => decide (0 ≤ t) && decide (t ≤ 1))

/-- The `/retrieve` handler body (server.py lines 286-362): refuse with
`503 Service not ready` until startup succeeded, then embed the query (the
embedding is passed in, the embedder being an external model), search and
build results. -/
def retrieve (st : ServerState) (qvec : List ℚ) (r : RetrievalRequest) :
    Except (ℕ × String) RetrievalResponse :=
  if st.ready = false then .error (503, "Service not ready")
  else
    let md := (st.metadata.map (·.chunks)).getD []
    let rows := st.indexRows.getD []
    let rs := retrieve_results md rows qvec r.k.toNat r.threshold
    .ok { query := r.query, results := rs, num_results := rs.length }

/-- The full `/retrieve` endpoint: FastAPI validation in front of the handler
(server.py lines 82-95 and 286-307). -/
def retrieve_endpoint (st : ServerState) (qvec : List ℚ) (r : RetrievalRequest) :
    Except (ℕ × String) RetrievalResponse :=
  if validate_retrieval_request r = false then .error (422, "validation error")
  else retrieve st qvec r

/-! ### Filesystem trace of `save_index` (ingest.py lines 306-366) -/

/-- A filesystem operation performed during persistence. -/
inductive FsOp where
  | mkdirp (path : String)
  | write (path : String)
  | rename (src dst : String)
  deriving DecidableEq, Repr

/-- Whether an operation is a rename (atomic publish step). -/
def FsOp.isRename : FsOp → Bool
  | .rename _ _ => true
  | _ => false

/-- The exact sequence of filesystem operations `save_index` performs
(ingest.py lines 306-366): create the output directory, then write the FAISS
index blob, the metadata pickle and the JSON summary directly to their final
paths, in that order, with no temporary files and no renames. -/
def save_index_ops (outputDir : String) : List FsOp :=
  [.mkdirp outputDir,
   .write (outputDir ++ "/faiss_index.bin"),
   .write (outputDir ++ "/metadata.pkl"),
   .write (outputDir ++ "/index_summary.json")]

/-- Files present after a prefix of the operations ran (what a concurrently
started loader can observe if the run is interrupted). -/
def filesAfter (ops : List FsOp) : List String :=
  ops.foldl (fun acc op => match op with | .write p => acc ++ [p] | _ => acc) []

/-- `main` (ingest.py lines 411-449): any exception aborts the run with exit
code 1; success returns 0. -/
def main_exit (r : Except String Unit) : ℤ :=
  match r with
  | .ok _ => 0
  | .error _ => 1

/-- The discipline the spec prescribes for persistence: published final paths
receive content only through an atomic rename, never through a direct write. -/
def atomicPublishDiscipline (ops : List FsOp) (finalPaths : List String) : Prop :=
  ∀ op ∈ ops, ∀ p ∈ finalPaths, op ≠ .write p

/-! ## Auxiliary predicates and concrete instances used by the claims -/

/-- The five terminator patterns `chunk_text` searches for (ingest.py lines
179-185), each two characters long. -/
def sentencePats : List (List Char) := [['.', ' '], ['।', ' '], ['?', ' '], ['!', ' '], ['\n', '\n']]

/-- No terminator pattern occurs anywhere in the text. -/
def noTerminators (text : List Char) : Prop :=
  ∀ pat ∈ sentencePats, ∀ p : ℕ, matchAt text pat p = false

/-- The text contains no whitespace character. -/
def noWhitespace (text : List Char) : Prop :=
  ∀ c ∈ text, isPySpace c = false

/-- Loop invariant of `chunk_text`: the running `start` never drops below
`-overlap`, and it can be negative at all only when the text is longer than
`chunk_size`. -/
def ChunkInv (textLen chunkSize overlap : ℕ) (start : ℤ) : Prop :=
  -(overlap : ℤ) ≤ start ∧ (start < 0 → (chunkSize : ℤ) < (textLen : ℤ))

/-- Position `i` lies inside the span of some emitted chunk. -/
def coveredBy (cs : List DocumentChunk) (i : ℤ) : Prop :=
  ∃ c ∈ cs, c.char_start ≤ i ∧ i < c.char_end

/-- Relation between consecutive chunks: spans strictly advance and the next
span starts exactly `overlap` before the previous one ends. -/
def chunkChain (overlap : ℕ) (a b : DocumentChunk) : Prop :=
  a.char_start < b.char_start ∧ a.char_end < b.char_end ∧
    b.char_start + (overlap : ℤ) = a.char_end

/-- Ranking relation the `/retrieve` result list must respect: strictly
descending score, exact score ties by strictly ascending `chunk_id`. -/
def resultRank (a b : DocumentResult) : Prop :=
  b.score < a.score ∨ (a.score = b.score ∧ a.chunk_id < b.chunk_id)

/-- The standing ingestion invariant: the metadata array is positional, the
record at position `i` carrying `chunk_id = i`. -/
def denseChunkIds (md : List DocumentChunk) : Prop :=
  ∀ i : Fin md.length, (md.get i).chunk_id = (i : ℕ)

/-- C5 failing input: a short first sentence followed by a long run of
letters (length 53). -/
def c5_text : List Char := 'a' :: '.' :: ' ' :: List.replicate 50 'b'

/-- C8 counterexample input: sixty letters, a sentence terminator, then fifty
more letters (length 112). -/
def c8_text : List Char := List.replicate 60 'a' ++ '.' :: ' ' :: List.replicate 50 'b'

/-- C6 counterexample input: a nonempty ten-character text, below the
51-character content floor. -/
def c6_text : List Char := List.replicate 10 'a'

/-- Witness text: sixty letters, no whitespace, no terminators. -/
def allA60 : List Char := List.replicate 60 'a'

/-- Concrete two-chunk metadata array with dense ordinals, for witnesses. -/
def mdSample : List DocumentChunk :=
  [{ text := ['x'], filename := "a.pdf", page_num := 1, chunk_id := 0,
     char_start := 0, char_end := 1, excerpt := ['x'] },
   { text := ['y'], filename := "a.pdf", page_num := 1, chunk_id := 1,
     char_start := 1, char_end := 2, excerpt := ['y'] }]

/-- Concrete index rows giving both chunks the same score against query
`[1]`, for witnesses. -/
def rowsSample : List (List ℚ) := [[1], [1]]

/-- C3 counterexample environment: everything present and loadable, but the
metadata records embedding dimension 768 while the loaded model produces
dimension 384. -/
def env0 : LoadEnv :=
  { indexDirExists := true
    indexFile := some [[1, 0]]
    metadataFile := some
      { chunks := mdSample, embedding_model := "paraphrase-multilingual-mpnet-base-v2"
        embedding_dim := 768, chunk_size := 700, chunk_overlap := 100, num_chunks := 2 }
    modelLoads := true
    modelDim := 384
    configModelName := "paraphrase-multilingual-mpnet-base-v2" }

/-- A ready server state holding 60 chunks, for the C10 witness (more chunks
than the maximum permitted `k`). -/
def stBig : ServerState :=
  { indexRows := some (List.replicate 60 [1])
    metadata := some
      { chunks := List.replicate 60 (default : DocumentChunk)
        embedding_model := "m", embedding_dim := 1, chunk_size := 700
        chunk_overlap := 100, num_chunks := 60 }
    modelDim := some 1
    ready := true }

/-! ## Basic lemmas about the Python string primitives -/

theorem foldl_max_le {α} [LinearOrder α] {b : α} :
    ∀ (l : List α) (a : α), a ≤ b → (∀ x ∈ l, x ≤ b) → l.foldl max a ≤ b
  | [], a, ha, _ => ha
  | x :: l, a, ha, h => by
    simpa using foldl_max_le l (max a x) (max_le ha (h x (by simp)))
      (fun y hy => h y (by simp [hy]))

theorem le_foldl_max_self {α} [LinearOrder α] : ∀ (l : List α) (a : α), a ≤ l.foldl max a
  | [], _ => le_rfl
  | x :: l, a => by
    simpa using le_trans (le_max_left a x) (le_foldl_max_self l (max a x))

theorem le_foldl_max_of_mem {α} [LinearOrder α] {l : List α} {x : α} (h : x ∈ l) :
    ∀ a : α, x ≤ l.foldl max a := by
  induction l with
  | nil => cases h
  | cons y l ih =>
    intro a
    rcases List.mem_cons.mp h with rfl | hm
    · simpa using le_trans (le_max_right a x) (le_foldl_max_self l (max a x))
    · simpa using ih hm (max a y)

theorem foldl_max_mem {α} [LinearOrder α] :
    ∀ (l : List α) (a : α), l.foldl max a = a ∨ l.foldl max a ∈ l
  | [], _ => Or.inl rfl
  | x :: l, a => by
    have h := foldl_max_mem l (max a x)
    simp only [List.foldl_cons]
    rcases h with h | h
    · rcases max_choice a x with h2 | h2
      · exact Or.inl (by rw [h, h2])
      · exact Or.inr (by rw [h, h2]; exact List.mem_cons_self _ _)
    · exact Or.inr (List.mem_cons_of_mem _ h)

theorem pyNormIdx_le_length (n : ℕ) (i : ℤ) : pyNormIdx n i ≤ n := by
  unfold pyNormIdx
  split
  · omega
  · exact min_le_right _ _

theorem pyNormIdx_le_of_nonneg (n : ℕ) (i : ℤ) (h : 0 ≤ i) : (pyNormIdx n i : ℤ) ≤ i := by
  unfold pyNormIdx
  split
  · omega
  · exact_mod_cast le_trans (Int.ofNat_le.mpr (min_le_left _ _)) (by omega)

theorem pyNormIdx_of_nonneg_lt (n : ℕ) (i : ℤ) (h0 : 0 ≤ i) (h : i < n) :
    (pyNormIdx n i : ℤ) = i := by
  unfold pyNormIdx
  split
  · omega
  · have : i.toNat ≤ n := by omega
    simp [min_eq_left this]
    omega

theorem length_pySlice (s : List Char) (i j : ℤ) :
    (pySlice s i j).length = pyNormIdx s.length j - pyNormIdx s.length i := by
  unfold pySlice
  have hj := pyNormIdx_le_length s.length j
  simp [List.length_take, List.length_drop]
  omega

theorem pyStrip_length_le (s : List Char) : (pyStrip s).length ≤ s.length := by
  unfold pyStrip
  calc ((s.dropWhile isPySpace).reverse.dropWhile isPySpace).reverse.length
      = ((s.dropWhile isPySpace).reverse.dropWhile isPySpace).length := List.length_reverse _
    _ ≤ (s.dropWhile isPySpace).reverse.length := (List.dropWhile_sublist _).length_le
    _ = (s.dropWhile isPySpace).length := List.length_reverse _
    _ ≤ s.length := (List.dropWhile_sublist _).length_le

theorem dropWhile_eq_self_of (l : List Char) (h : ∀ c ∈ l, isPySpace c = false) :
    l.dropWhile isPySpace = l := by
  cases l with
  | nil => rfl
  | cons x xs => simp [List.dropWhile_cons, h x (by simp)]

theorem pyStrip_of_noWhitespace {s : List Char} (h : ∀ c ∈ s, isPySpace c = false) :
    pyStrip s = s := by
  unfold pyStrip
  rw [dropWhile_eq_self_of s h]
  rw [dropWhile_eq_self_of s.reverse (fun c hc => h c (by simpa using hc))]
  exact List.reverse_reverse s

theorem mem_pySlice {s : List Char} {i j : ℤ} {c : Char} (h : c ∈ pySlice s i j) : c ∈ s := by
  unfold pySlice at h
  exact List.mem_of_mem_drop (List.mem_of_mem_take h)

theorem pyRfind_ge_neg_one (s pat : List Char) (i j : ℤ) : -1 ≤ pyRfind s pat i j :=
  le_foldl_max_self _ _

theorem mem_pyRfindCands {s pat : List Char} {lo hi p : ℕ} :
    p ∈ pyRfindCands s pat lo hi ↔ p ≤ hi ∧ lo ≤ p ∧ p + pat.length ≤ hi ∧
      matchAt s pat p = true := by
  unfold pyRfindCands
  rw [List.mem_filter, List.mem_range]
  rw [Bool.and_eq_true, Bool.and_eq_true, decide_eq_true_eq, decide_eq_true_eq]
  constructor
  · rintro ⟨h1, ⟨h2, h3⟩, h4⟩
    exact ⟨by omega, h2, h3, h4⟩
  · rintro ⟨h1, h2, h3, h4⟩
    exact ⟨by omega, ⟨h2, h3⟩, h4⟩

theorem le_pyRfind {s pat : List Char} {i j : ℤ} {p : ℕ}
    (h1 : pyNormIdx s.length i ≤ p) (h2 : p + pat.length ≤ pyNormIdx s.length j)
    (h3 : matchAt s pat p = true) : (p : ℤ) ≤ pyRfind s pat i j := by
  unfold pyRfind
  apply le_foldl_max_of_mem
  apply List.mem_map.mpr
  exact ⟨p, mem_pyRfindCands.mpr ⟨by omega, h1, h2, h3⟩, rfl⟩

theorem pyRfind_spec {s pat : List Char} {i j : ℤ} (h : 0 ≤ pyRfind s pat i j) :
    ∃ p : ℕ, (p : ℤ) = pyRfind s pat i j ∧ pyNormIdx s.length i ≤ p ∧
      p + pat.length ≤ pyNormIdx s.length j ∧ matchAt s pat p = true := by
  unfold pyRfind at h ⊢
  rcases foldl_max_mem
      ((pyRfindCands s pat (pyNormIdx s.length i) (pyNormIdx s.length j)).map
        (fun p : ℕ => (p : ℤ))) (-1) with hc | hc
  · rw [hc] at h; omega
  · rw [List.mem_map] at hc
    obtain ⟨p, hpf, hpe⟩ := hc
    obtain ⟨_, hp1, hp2, hp3⟩ := mem_pyRfindCands.mp hpf
    exact ⟨p, hpe, hp1, hp2, hp3⟩

theorem pyRfind_le {s pat : List Char} {i j : ℤ} {B : ℤ} (hB : -1 ≤ B)
    (h : ∀ p : ℕ, pyNormIdx s.length i ≤ p → p + pat.length ≤ pyNormIdx s.length j →
      matchAt s pat p = true → (p : ℤ) ≤ B) :
    pyRfind s pat i j ≤ B := by
  apply foldl_max_le _ _ hB
  intro x hx
  rw [List.mem_map] at hx
  obtain ⟨p, hpf, hpe⟩ := hx
  obtain ⟨_, hp1, hp2, hp3⟩ := mem_pyRfindCands.mp hpf
  exact hpe ▸ h p hp1 hp2 hp3

theorem pyRfind_eq_neg_one {s pat : List Char} (i j : ℤ)
    (h : ∀ p : ℕ, matchAt s pat p = false) : pyRfind s pat i j = -1 := by
  have hle : pyRfind s pat i j ≤ -1 :=
    pyRfind_le le_rfl (fun p _ _ hm => by simp [h p] at hm)
  exact le_antisymm hle (pyRfind_ge_neg_one s pat i j)

theorem matchAt_of_ge {s pat : List Char} {p : ℕ} (hpat : pat ≠ [])
    (h : s.length ≤ p) : matchAt s pat p = false := by
  unfold matchAt
  rw [List.drop_eq_nil_of_le h]
  simp only [List.take_nil]
  rw [beq_eq_false_iff_ne]
  exact fun h2 => hpat h2.symm

/-! ## `sentenceEnd` bounds -/

theorem sentenceEnd_ge_neg_one (text : List Char) (ss e : ℤ) :
    -1 ≤ sentenceEnd text ss e := by
  unfold sentenceEnd
  have := pyRfind_ge_neg_one text ['.', ' '] ss e
  exact le_trans this (le_max_left _ _)

theorem sentenceEnd_bound {text : List Char} {ss e : ℤ} (h : 0 ≤ sentenceEnd text ss e) :
    sentenceEnd text ss e + 2 ≤ pyNormIdx text.length e := by
  unfold sentenceEnd at *
  have key : ∀ pat : List Char, pat.length = 2 → 0 ≤ pyRfind text pat ss e →
      pyRfind text pat ss e + 2 ≤ pyNormIdx text.length e := by
    intro pat hlen hge
    obtain ⟨p, hpe, _, hub, _⟩ := pyRfind_spec hge
    omega
  rcases max_choice (pyRfind text ['.', ' '] ss e)
      (max (pyRfind text ['।', ' '] ss e)
        (max (pyRfind text ['?', ' '] ss e)
          (max (pyRfind text ['!', ' '] ss e)
            (pyRfind text ['\n', '\n'] ss e)))) with h1 | h1 <;> rw [h1] at h ⊢
  · exact key _ rfl h
  rcases max_choice (pyRfind text ['।', ' '] ss e)
      (max (pyRfind text ['?', ' '] ss e)
        (max (pyRfind text ['!', ' '] ss e)
          (pyRfind text ['\n', '\n'] ss e))) with h2 | h2 <;> rw [h2] at h ⊢
  · exact key _ rfl h
  rcases max_choice (pyRfind text ['?', ' '] ss e)
      (max (pyRfind text ['!', ' '] ss e)
        (pyRfind text ['\n', '\n'] ss e)) with h3 | h3 <;> rw [h3] at h ⊢
  · exact key _ rfl h
  rcases max_choice (pyRfind text ['!', ' '] ss e)
      (pyRfind text ['\n', '\n'] ss e) with h4 | h4 <;> rw [h4] at h ⊢
  · exact key _ rfl h
  · exact key _ rfl h

/-! ## C2: threshold filtering is post-search filtering -/

theorem build_results_threshold (md : List DocumentChunk) (t : ℚ) :
    ∀ hits : List (ℤ × ℚ), build_results md (some t) hits =
      (build_results md none hits).filter (fun r => decide (t ≤ r.score))
  | [] => rfl
  | (i, s) :: rest => by
    by_cases hi : i = -1
    · simp only [build_results, if_pos hi]
      exact build_results_threshold md t rest
    · by_cases hts : s < t
      · simp only [build_results, if_neg hi]
        rw [build_results_threshold md t rest]
        simp [mkResult, List.filter_cons, not_le.mpr hts]
      · simp only [build_results, if_neg hi]
        rw [build_results_threshold md t rest]
        simp [mkResult, List.filter_cons, not_lt.mp hts]

/-- C2: for every query vector, metadata array, index contents and `k`,
`retrieve` with `threshold = t` returns exactly the entries of the
threshold-free call whose score is at least `t`, in the same order; the same
`k` is passed to the index search on both sides, so filtering happens after
the search and never shrinks the search. -/
theorem c2_threshold_postfilter (md : List DocumentChunk) (rows : List (List ℚ))
    (qvec : List ℚ) (k : ℕ) (t : ℚ) :
    retrieve_results md rows qvec k (some t) =
      (retrieve_results md rows qvec k none).filter (fun r => decide (t ≤ r.score)) :=
  build_results_threshold md t (faiss_search rows qvec k)

/-! ## C7: persistence writes directly to final paths (no atomic publish) -/

/-- C7 counterexample: `save_index` violates the temp-plus-atomic-publish
discipline the claim asserts — it writes the FAISS blob directly to its final
path, performs no rename at all, and after the first write (e.g. if metadata
pickling then fails) the output directory holds the index blob without
metadata: an observable half-built artifact. -/
theorem c7_counterexample :
    ¬ atomicPublishDiscipline (save_index_ops "index")
        ["index/faiss_index.bin", "index/metadata.pkl"] ∧
    (save_index_ops "index").filter FsOp.isRename = [] ∧
    filesAfter ((save_index_ops "index").take 2) = ["index/faiss_index.bin"] := by
  refine ⟨?_, rfl, rfl⟩
  intro h
  exact h (.write "index/faiss_index.bin") (by simp [save_index_ops])
    "index/faiss_index.bin" (by simp) rfl

/-- C7 (amended): `save_index` creates the output directory and then writes
the index blob, the metadata pickle and the JSON summary sequentially and
directly to their final paths, with no temporary location and no rename; an
interruption after the first write leaves exactly the index blob on disk
without its metadata.  A failure does abort the run (`main` exits nonzero),
but partial files are not cleaned up. -/
theorem c7_amended_direct_writes (dir : String) :
    save_index_ops dir = [.mkdirp dir, .write (dir ++ "/faiss_index.bin"),
      .write (dir ++ "/metadata.pkl"), .write (dir ++ "/index_summary.json")] ∧
    filesAfter ((save_index_ops dir).take 2) = [dir ++ "/faiss_index.bin"] ∧
    (save_index_ops dir).all (fun op => !op.isRename) = true ∧
    (∀ msg : String, main_exit (.error msg) = 1) ∧ main_exit (.ok ()) = 0 :=
  ⟨rfl, rfl, rfl, fun _ => rfl, rfl⟩

/-! ## C10: request validation happens before the handler body -/

theorem string_one_le_length_iff (s : String) : 1 ≤ s.length ↔ s ≠ "" := by
  cases s with
  | mk data =>
    cases data with
    | nil => simp [String.length]
    | cons c cs =>
      constructor
      · intro _ h
        exact absurd (congrArg String.data h) (by simp)
      · intro _
        simp [String.length]

/-- C10: the public `/retrieve` interface accepts a request exactly when its
`k` lies in `1..50`, its query string is non-empty and its threshold (when
given) lies in `[0, 1]`; any other request is rejected with a 422 validation
error before the handler body — hence before any embedding or index search —
whatever the server state (in particular however many chunks the index
holds). -/
theorem c10_request_validation (r : RetrievalRequest) (st : ServerState) (qvec : List ℚ) :
    (validate_retrieval_request r = true ↔
      (1 ≤ r.k ∧ r.k ≤ 50 ∧ r.query ≠ "" ∧
        ∀ t : ℚ, r.threshold = some t → 0 ≤ t ∧ t ≤ 1)) ∧
    (validate_retrieval_request r = false →
      retrieve_endpoint st qvec r = .error (422, "validation error")) := by
  constructor
  · constructor
    · intro h
      unfold validate_retrieval_request at h
      rw [Bool.and_eq_true, Bool.and_eq_true, Bool.and_eq_true] at h
      obtain ⟨⟨⟨h1, h2⟩, h3⟩, h4⟩ := h
      rw [decide_eq_true_eq] at h1 h2 h3
      refine ⟨h2, h3, (string_one_le_length_iff _).mp h1, ?_⟩
      intro t ht
      rw [ht, Bool.and_eq_true, decide_eq_true_eq, decide_eq_true_eq] at h4
      exact h4
    · rintro ⟨h1, h2, h3, h4⟩
      unfold validate_retrieval_request
      rw [Bool.and_eq_true, Bool.and_eq_true, Bool.and_eq_true]
      refine ⟨⟨⟨?_, ?_⟩, ?_⟩, ?_⟩
      · rw [decide_eq_true_eq]
        exact (string_one_le_length_iff _).mpr h3
      · rw [decide_eq_true_eq]
        exact h1
      · rw [decide_eq_true_eq]
        exact h2
      · cases hthr : r.threshold with
        | none => rfl
        | some t =>
          obtain ⟨h5, h6⟩ := h4 t hthr
          rw [Bool.and_eq_true, decide_eq_true_eq, decide_eq_true_eq]
          exact ⟨h5, h6⟩
  · intro h
    unfold retrieve_endpoint
    rw [h]
    rfl

/-- Witness for C10: the request with `k = 0` is rejected with a validation
error even on a ready server whose index holds 60 chunks. -/
theorem c10_witness :
    validate_retrieval_request { query := "hi", k := 0 } = false ∧
    retrieve_endpoint stBig [1] { query := "hi", k := 0 } =
      .error (422, "validation error") :=
  ⟨rfl, (c10_request_validation { query := "hi", k := 0 } stBig [1]).2 rfl⟩

/-! ## C3: the 503 gate and what startup actually checks -/

/-- C3 counterexample: an environment whose metadata records embedding
dimension 768 while the loaded embedder has dimension 384 still starts up
successfully with `ready = true` — the dimension mismatch is not fatal at load
time, contradicting the claim. -/
theorem c3_counterexample :
    (startup_event env0).toOption.map (fun s => s.ready) = some true ∧
    env0.metadataFile.map (fun m => m.embedding_dim) = some 768 ∧
    env0.modelDim = 384 ∧ (768 : ℕ) ≠ 384 :=
  ⟨rfl, rfl, rfl, by decide⟩

/-- C3 (amended): the `/retrieve` handler refuses with `503 Service not
ready` whenever startup has not completed, and `startup_event` succeeds (and
only then sets `ready`) exactly when the embedding model loads and the index
directory, index file and metadata file all exist — no comparison between the
metadata's recorded embedding dimension and the embedder's dimension is
performed, so a dimension mismatch does not fail at load time. -/
theorem c3_amended_ready_gate (env : LoadEnv) (st : ServerState) (qvec : List ℚ)
    (r : RetrievalRequest) :
    ((startup_event env).toOption.isSome = true ↔
      (env.modelLoads = true ∧ env.indexDirExists = true ∧
        env.indexFile.isSome = true ∧ env.metadataFile.isSome = true)) ∧
    (∀ s, startup_event env = .ok s → s.ready = true) ∧
    (st.ready = false → retrieve st qvec r = .error (503, "Service not ready")) := by
  refine ⟨?_, ?_, ?_⟩
  · unfold startup_event load_embedding_model load_index_and_metadata
    cases hm : env.modelLoads <;> cases hd : env.indexDirExists <;>
      cases hif : env.indexFile <;> cases hmf : env.metadataFile <;>
        simp [Except.bind, Except.map, Except.toOption]
  · intro s hs
    unfold startup_event at hs
    cases hme : load_embedding_model env {} with
    | error e =>
      rw [hme] at hs
      simp [Except.bind] at hs
    | ok st1 =>
      rw [hme] at hs
      simp only [Except.bind] at hs
      cases hli : load_index_and_metadata env st1 with
      | error e =>
        rw [hli] at hs
        simp [Except.map] at hs
      | ok st2 =>
        rw [hli] at hs
        simp only [Except.map] at hs
        rw [Except.ok.injEq] at hs
        rw [← hs]
  · intro h
    unfold retrieve
    rw [h]
    rfl

/-- Witness for C3 (amended): the freshly initialized server state is not
ready, and `retrieve` on it refuses with the 503 error. -/
theorem c3_witness :
    ({} : ServerState).ready = false ∧
    retrieve {} [1] { query := "q" } = .error (503, "Service not ready") :=
  ⟨rfl, (c3_amended_ready_gate env0 {} [1] { query := "q" }).2.2 rfl⟩

/-! ## C5: the chunker loop does not always terminate -/

theorem c5_loop_stuck :
    ∀ fuel cid, chunk_text_loop c5_text 10 5 "doc.pdf" 1 fuel (-5) cid = none
  | 0, _ => rfl
  | fuel + 1, cid => by
    have hstep : chunk_text_loop c5_text 10 5 "doc.pdf" 1 (fuel + 1) (-5) cid =
        chunk_text_loop c5_text 10 5 "doc.pdf" 1 fuel (-5) cid := rfl
    rw [hstep]
    exact c5_loop_stuck fuel cid

theorem c5_loop_into (fuel : ℕ) (cid : ℕ) :
    chunk_text_loop c5_text 10 5 "doc.pdf" 1 (fuel + 2) 0 cid =
      chunk_text_loop c5_text 10 5 "doc.pdf" 1 fuel (-5) cid := rfl

/-- C5: the claim that `chunk_text` terminates for every text and every
configuration with `chunk_size > 0` and `0 ≤ overlap < chunk_size` is false on
the code: on the 53-character text `"a. " ++ 50 × 'b'` with `chunk_size = 10`,
`overlap = 5`, the running `start` goes `0 → -3 → -5 → -5 → ...` (the sentence
boundary at position 1 pulls `end` below `start + overlap`, Python's negative
indices then make every later window slice empty), so the loop re-enters the
state `start = -5` forever: no amount of fuel makes the loop return. -/
theorem c5_nontermination :
    ∀ fuel : ℕ, chunk_text 10 5 c5_text "doc.pdf" 1 0 fuel = none := by
  intro fuel
  match fuel with
  | 0 => rfl
  | 1 => rfl
  | f + 2 =>
    show chunk_text_loop c5_text 10 5 "doc.pdf" 1 (f + 2) 0 0 = none
    rw [c5_loop_into f 0]
    exact c5_loop_stuck f 0

/-! ## C8: where exactly the window edge lands on a sentence boundary -/

/-- C8 counterexample: on a text with its only terminator pattern `". "` at
positions 60-61 (`chunk_size = 100`, `overlap = 10`), the first emitted chunk
has `char_end = 61 = sentence_end + 1`: the untrimmed slice `text[0:61]` ends
with the `'.'` and does not include the following space, so the slice does
not end "immediately after the complete terminator pattern" (which would
require `char_end = 62`). -/
theorem c8_counterexample :
    (chunk_text 100 10 c8_text "doc.pdf" 1 0 5).map
        (fun cs => cs.map (fun c => c.char_end)) = some [61, 151] ∧
    matchAt c8_text ['.', ' '] 60 = true ∧
    (pySlice c8_text 0 61).getLast? = some '.' ∧
    (61 : ℤ) ≠ 60 + 2 :=
  ⟨by decide, by decide, by decide, by decide⟩

theorem sentencePats_length {pat : List Char} (h : pat ∈ sentencePats) :
    pat.length = 2 := by
  rcases (by simpa [sentencePats] using h :
      pat = ['.', ' '] ∨ pat = ['।', ' '] ∨ pat = ['?', ' '] ∨ pat = ['!', ' '] ∨
        pat = ['\n', '\n']) with h | h | h | h | h <;> rw [h] <;> rfl

/-- C8 (amended): when the provisional edge `start + chunk_size` falls
strictly inside the text and the rightmost configured terminator occurrence
in the lookback window `[max(start, end-100), end)` starts at `p` with
`p > start`, the window's right edge becomes `p + 1` — one past the
terminator's first character, so the untrimmed slice keeps the punctuation
mark but not the second character of the two-character pattern; otherwise the
`chunk_size`-based edge is kept. -/
theorem c8_amended_boundary (text : List Char) (chunkSize start p : ℕ)
    (pat : List Char) (hpat : pat ∈ sentencePats)
    (hn : start + chunkSize < text.length)
    (hlb : max start (start + chunkSize - 100) ≤ p)
    (hub : p + 2 ≤ start + chunkSize)
    (hgt : start < p)
    (hmatch : matchAt text pat p = true)
    (hmax : ∀ q : ℕ, q < start + chunkSize → p < q →
      ∀ pat2 ∈ sentencePats, matchAt text pat2 q = false) :
    computeEnd text chunkSize (start : ℤ) = (p : ℤ) + 1 := by
  have hn' : ((start : ℤ) + chunkSize) < (text.length : ℤ) := by exact_mod_cast hn
  set ss : ℤ := max (start : ℤ) ((start : ℤ) + chunkSize - 100) with hss
  set e0 : ℤ := (start : ℤ) + chunkSize with he0
  have hssn : (pyNormIdx text.length ss : ℤ) = ss := by
    apply pyNormIdx_of_nonneg_lt
    · exact le_trans (Int.ofNat_nonneg start) (le_max_left _ _)
    · have : ss ≤ e0 := max_le (by omega) (by omega)
      omega
  have he0n : (pyNormIdx text.length e0 : ℤ) = e0 :=
    pyNormIdx_of_nonneg_lt _ _ (by omega) hn'
  have hssp : pyNormIdx text.length ss ≤ p := by
    have : ss ≤ (p : ℤ) := by
      rw [hss]
      omega
    omega
  have he0p : p + 2 ≤ pyNormIdx text.length e0 := by omega
  -- every terminator search stays at or below p
  have hle : ∀ pat2 ∈ sentencePats, pyRfind text pat2 ss e0 ≤ (p : ℤ) := by
    intro pat2 hpat2
    apply pyRfind_le (by omega)
    intro q _ hq2 hqm
    by_contra hqp
    push_neg at hqp
    have hq2' : q + 2 ≤ start + chunkSize := by
      have := sentencePats_length hpat2
      omega
    have := hmax q (by omega) (by exact_mod_cast hqp) pat2 hpat2
    rw [this] at hqm
    cases hqm
  -- the given occurrence is found
  have hge : (p : ℤ) ≤ pyRfind text pat ss e0 := by
    apply le_pyRfind hssp _ hmatch
    have := sentencePats_length hpat
    omega
  have hseq : sentenceEnd text ss e0 = (p : ℤ) := by
    apply le_antisymm
    · unfold sentenceEnd
      refine max_le (hle _ (by simp [sentencePats])) (max_le (hle _ (by simp [sentencePats]))
        (max_le (hle _ (by simp [sentencePats])) (max_le (hle _ (by simp [sentencePats]))
          (hle _ (by simp [sentencePats])))))
    · refine le_trans hge ?_
      unfold sentenceEnd
      rcases (by simpa [sentencePats] using hpat :
          pat = ['.', ' '] ∨ pat = ['।', ' '] ∨ pat = ['?', ' '] ∨ pat = ['!', ' '] ∨
            pat = ['\n', '\n']) with h | h | h | h | h <;> rw [h]
      · exact le_max_left _ _
      · exact le_trans (le_max_left _ _) (le_max_right _ _)
      · exact le_trans (le_trans (le_max_left _ _) (le_max_right _ _)) (le_max_right _ _)
      · exact le_trans (le_trans (le_trans (le_max_left _ _) (le_max_right _ _))
          (le_max_right _ _)) (le_max_right _ _)
      · exact le_trans (le_trans (le_trans (le_max_right _ _) (le_max_right _ _))
          (le_max_right _ _)) (le_max_right _ _)
  unfold computeEnd
  simp only [← hss, ← he0]
  rw [if_pos hn', hseq, if_pos (by exact_mod_cast hgt)]

/-- Witness for C8 (amended): on `c8_text` with `chunk_size = 100` from
`start = 0`, the terminator at position 60 moves the edge to 61. -/
theorem c8_witness : computeEnd c8_text 100 0 = 61 := by
  have h := c8_amended_boundary c8_text 100 0 60 ['.', ' ']
    (by decide) (by decide) (by decide) (by decide) (by decide) (by decide)
    (by decide)
  exact_mod_cast h

/-! ## C4: ordinals are dense across a whole ingestion run -/

theorem chunk_ids_loop (text : List Char) (chunkSize overlap : ℕ) (fn : String) (pg : ℕ) :
    ∀ (fuel : ℕ) (start : ℤ) (cid : ℕ) (cs : List DocumentChunk),
      chunk_text_loop text chunkSize overlap fn pg fuel start cid = some cs →
      cs.map (fun c => c.chunk_id) = List.range' cid cs.length := by
  intro fuel
  induction fuel with
  | zero => intro start cid cs h; cases h
  | succ fuel ih =>
    intro start cid cs h
    rw [chunk_text_loop] at h
    split at h
    · split at h
      · split at h
        · rw [Option.some_inj] at h
          rw [← h]
          rfl
        · rw [Option.map_eq_some'] at h
          obtain ⟨rest, hrest, hcs⟩ := h
          have := ih _ _ _ hrest
          rw [← hcs]
          simp only [List.map_cons, this, List.length_cons]
          rfl
      · split at h
        · rw [Option.some_inj] at h
          rw [← h]
          rfl
        · exact ih _ _ _ h
    · rw [Option.some_inj] at h
      rw [← h]
      rfl

theorem process_pdfs_ids (chunkSize overlap fuel : ℕ) :
    ∀ (pages : List (String × ℕ × List Char)) (offset : ℕ) (cs : List DocumentChunk),
      process_pdfs chunkSize overlap fuel pages offset = some cs →
      cs.map (fun c => c.chunk_id) = List.range' offset cs.length := by
  intro pages
  induction pages with
  | nil =>
    intro offset cs h
    rw [process_pdfs, Option.some_inj] at h
    rw [← h]
    rfl
  | cons page rest ih =>
    intro offset cs h
    obtain ⟨fn, pg, txt⟩ := page
    rw [process_pdfs] at h
    split at h
    · cases h
    · rename_i cs1 hcs1
      rw [Option.map_eq_some'] at h
      obtain ⟨cs2, hcs2, hcs⟩ := h
      have h1 := chunk_ids_loop txt chunkSize overlap fn pg fuel 0 offset cs1 hcs1
      have h2 := ih _ _ hcs2
      rw [← hcs, List.map_append, h1, h2, List.length_append, Nat.add_comm cs1.length]
      exact List.range'_append_1 offset cs1.length cs2.length

/-- C4: after a full ingestion run over any ordered sequence of extracted
pages, the `chunk_id` values of the produced chunks are exactly `0..N-1` in
list order — the produced list position, the metadata array position (the
metadata is the positional image of this list) and the embedded row index all
coincide with `chunk_id`. -/
theorem c4_dense_ordinals (chunkSize overlap fuel : ℕ)
    (pages : List (String × ℕ × List Char)) (cs : List DocumentChunk)
    (h : process_pdfs chunkSize overlap fuel pages 0 = some cs) :
    cs.map (fun c => c.chunk_id) = List.range cs.length := by
  rw [List.range_eq_range']
  exact process_pdfs_ids chunkSize overlap fuel pages 0 cs h

/-- Witness for C4: a concrete two-page run emits one chunk per page with
ordinals `[0, 1]`. -/
theorem c4_witness :
    ((process_pdfs 100 10 5 [("a.pdf", 1, allA60), ("b.pdf", 1, allA60)] 0).getD []).map
        (fun c => c.chunk_id) =
      List.range
        ((process_pdfs 100 10 5 [("a.pdf", 1, allA60), ("b.pdf", 1, allA60)] 0).getD
            []).length :=
  c4_dense_ordinals 100 10 5 [("a.pdf", 1, allA60), ("b.pdf", 1, allA60)]
    ((process_pdfs 100 10 5 [("a.pdf", 1, allA60), ("b.pdf", 1, allA60)] 0).getD []) rfl

/-! ## C9: span offset bounds of emitted chunks -/

theorem computeEnd_bounds (text : List Char) (chunkSize overlap : ℕ) (start : ℤ)
    (hV : (overlap : ℤ) < chunkSize) (hs : -(overlap : ℤ) ≤ start) :
    0 ≤ computeEnd text chunkSize start ∧
      computeEnd text chunkSize start ≤ start + chunkSize := by
  unfold computeEnd
  split
  · split
    · rename_i hgt
      set se := sentenceEnd text (max start (start + chunkSize - 100))
        (start + chunkSize) with hse
      by_cases h0 : 0 ≤ se
      · have hb := sentenceEnd_bound h0
        have hle := pyNormIdx_le_of_nonneg text.length (start + chunkSize) (by omega)
        constructor <;> omega
      · have hgen : -1 ≤ se := sentenceEnd_ge_neg_one _ _ _
        constructor <;> omega
    · constructor <;> omega
  · constructor <;> omega

theorem chunkInv_step (text : List Char) (chunkSize overlap : ℕ) (start : ℤ)
    (hV : overlap < chunkSize)
    (hinv : ChunkInv text.length chunkSize overlap start) :
    ChunkInv text.length chunkSize overlap (computeEnd text chunkSize start - overlap) := by
  obtain ⟨h1, h2⟩ := hinv
  have hVi : (overlap : ℤ) < chunkSize := by exact_mod_cast hV
  obtain ⟨hb1, hb2⟩ := computeEnd_bounds text chunkSize overlap start hVi h1
  constructor
  · omega
  · intro hneg
    by_cases hs0 : start < 0
    · exact h2 hs0
    · push_neg at hs0
      by_cases hlt : start + (chunkSize : ℤ) < (text.length : ℤ)
      · omega
      · exfalso
        have heq : computeEnd text chunkSize start = start + chunkSize := by
          unfold computeEnd
          rw [if_neg hlt]
        omega

theorem emitted_bounds (text : List Char) (chunkSize overlap : ℕ) (start : ℤ)
    (hV : overlap < chunkSize)
    (hinv : ChunkInv text.length chunkSize overlap start)
    (hemit : 50 < (pyStrip (pySlice text start (computeEnd text chunkSize start))).length) :
    0 ≤ start ∧ start < computeEnd text chunkSize start ∧ start < (text.length : ℤ) := by
  obtain ⟨h1, h2⟩ := hinv
  have hVi : (overlap : ℤ) < chunkSize := by exact_mod_cast hV
  obtain ⟨hb1, hb2⟩ := computeEnd_bounds text chunkSize overlap start hVi h1
  set e := computeEnd text chunkSize start with he
  have hlen : (pySlice text start e).length =
      pyNormIdx text.length e - pyNormIdx text.length start := length_pySlice text start e
  have hstrip : (pyStrip (pySlice text start e)).length ≤ (pySlice text start e).length :=
    pyStrip_length_le _
  have hpos : pyNormIdx text.length start < pyNormIdx text.length e := by omega
  have hhiE : (pyNormIdx text.length e : ℤ) ≤ e := pyNormIdx_le_of_nonneg _ _ hb1
  have hhiN : pyNormIdx text.length e ≤ text.length := pyNormIdx_le_length _ _
  have hs0 : 0 ≤ start := by
    by_contra hneg
    push_neg at hneg
    have hCn : (chunkSize : ℤ) < (text.length : ℤ) := h2 hneg
    have hlo : (pyNormIdx text.length start : ℤ) = (text.length : ℤ) + start := by
      unfold pyNormIdx
      rw [if_pos hneg]
      omega
    omega
  have hlo3 : (pyNormIdx text.length start : ℤ) = min start (text.length : ℤ) := by
    unfold pyNormIdx
    rw [if_neg (not_lt.mpr hs0)]
    omega
  refine ⟨hs0, by omega, by omega⟩

theorem c9_loop (text : List Char) (chunkSize overlap : ℕ) (fn : String) (pg : ℕ)
    (hV : overlap < chunkSize) :
    ∀ (fuel : ℕ) (start : ℤ) (cid : ℕ) (cs : List DocumentChunk),
      ChunkInv text.length chunkSize overlap start →
      chunk_text_loop text chunkSize overlap fn pg fuel start cid = some cs →
      ∀ c ∈ cs, 0 ≤ c.char_start ∧ c.char_start < c.char_end ∧
        c.char_start < (text.length : ℤ) := by
  intro fuel
  induction fuel with
  | zero =>
    intro start cid cs _ h
    cases h
  | succ fuel ih =>
    intro start cid cs hinv h
    rw [chunk_text_loop] at h
    split at h
    · split at h
      · rename_i hemit
        split at h
        · rw [Option.some_inj] at h
          rw [← h]
          intro c hc
          rw [List.mem_singleton] at hc
          rw [hc]
          exact emitted_bounds text chunkSize overlap start hV hinv hemit
        · rw [Option.map_eq_some'] at h
          obtain ⟨rest, hrest, hcs⟩ := h
          intro c hc
          rw [← hcs] at hc
          rcases List.mem_cons.mp hc with rfl | hcrest
          · exact emitted_bounds text chunkSize overlap start hV hinv hemit
          · exact ih _ _ _ (chunkInv_step text chunkSize overlap start hV hinv) hrest c hcrest
      · split at h
        · rw [Option.some_inj] at h
          rw [← h]
          intro c hc
          cases hc
        · exact ih _ _ _ (chunkInv_step text chunkSize overlap start hV hinv) h
    · rw [Option.some_inj] at h
      rw [← h]
      intro c hc
      cases hc

/-- C9 counterexample: on a 60-character text with `chunk_size = 100`,
`overlap = 10`, the single emitted chunk records `char_end = 100 > 60 = L`:
the hard cut stores `start + chunk_size` without cropping it to the text
length, so `char_end ≤ L` fails. -/
theorem c9_counterexample :
    ¬ (∀ c ∈ (chunk_text 100 10 allA60 "doc.pdf" 1 0 5).getD [],
        0 ≤ c.char_start ∧ c.char_start < c.char_end ∧
          c.char_end ≤ (allA60.length : ℤ)) := by
  decide

/-- C9 (amended): for every configuration with `overlap < chunk_size`, every
chunk emitted by a terminating `chunk_text` run on a text of length `L`
satisfies `0 ≤ char_start < char_end` and `char_start < L`; `char_end`,
however, may exceed `L` (a hard cut records `start + chunk_size` uncropped),
so the original upper bound `char_end ≤ L` does not hold. -/
theorem c9_amended_span_bounds (text : List Char) (chunkSize overlap : ℕ)
    (fn : String) (pg : ℕ) (off fuel : ℕ) (cs : List DocumentChunk)
    (hV : overlap < chunkSize)
    (h : chunk_text chunkSize overlap text fn pg off fuel = some cs) :
    ∀ c ∈ cs, 0 ≤ c.char_start ∧ c.char_start < c.char_end ∧
      c.char_start < (text.length : ℤ) :=
  c9_loop text chunkSize overlap fn pg hV fuel 0 off cs
    ⟨by omega, fun hh => absurd hh (lt_irrefl 0)⟩ h

/-- Witness for C9 (amended): the chunk emitted on the 60-character witness
text satisfies the amended bounds. -/
theorem c9_witness :
    0 ≤ (((chunk_text 100 10 allA60 "doc.pdf" 1 0 5).getD []).headD default).char_start ∧
    (((chunk_text 100 10 allA60 "doc.pdf" 1 0 5).getD []).headD default).char_start <
      (((chunk_text 100 10 allA60 "doc.pdf" 1 0 5).getD []).headD default).char_end ∧
    (((chunk_text 100 10 allA60 "doc.pdf" 1 0 5).getD []).headD default).char_start <
      (allA60.length : ℤ) :=
  c9_amended_span_bounds allA60 100 10 "doc.pdf" 1 0 5
    ((chunk_text 100 10 allA60 "doc.pdf" 1 0 5).getD []) (by omega) rfl
    _ (by decide)

/-! ## C1: result count and ranking order of `/retrieve` -/

theorem build_results_append (md : List DocumentChunk) (thr : Option ℚ) :
    ∀ l1 l2 : List (ℤ × ℚ), build_results md thr (l1 ++ l2) =
      build_results md thr l1 ++ build_results md thr l2
  | [], l2 => rfl
  | (i, s) :: rest, l2 => by
    by_cases hi : i = -1
    · simp only [List.cons_append, build_results, if_pos hi]
      exact build_results_append md thr rest l2
    · cases thr with
      | none =>
        simp only [List.cons_append, build_results, if_neg hi]
        exact congrArg (mkResult (md.getD i.toNat default) s :: ·)
          (build_results_append md none rest l2)
      | some t =>
        by_cases hts : s < t
        · simp only [List.cons_append, build_results, if_neg hi, if_pos hts]
          exact build_results_append md (some t) rest l2
        · simp only [List.cons_append, build_results, if_neg hi, if_neg hts]
          exact congrArg (mkResult (md.getD i.toNat default) s :: ·)
            (build_results_append md (some t) rest l2)

theorem build_results_pad (md : List DocumentChunk) (thr : Option ℚ) (m : ℕ) :
    build_results md thr (List.replicate m ((-1 : ℤ), (0 : ℚ))) = [] := by
  induction m with
  | zero => rfl
  | succ m ih =>
    rw [List.replicate_succ]
    simp only [build_results, if_pos rfl]
    exact ih

theorem build_results_none_map (md : List DocumentChunk) :
    ∀ hits : List (ℤ × ℚ), (∀ p ∈ hits, p.1 ≠ -1) →
      build_results md none hits =
        hits.map (fun p => mkResult (md.getD p.1.toNat default) p.2)
  | [], _ => rfl
  | (i, s) :: rest, h => by
    have hi : i ≠ -1 := h (i, s) (List.mem_cons_self _ _)
    simp only [build_results, if_neg hi, List.map_cons]
    rw [build_results_none_map md rest (fun p hp => h p (List.mem_cons_of_mem _ hp))]

/-- C1: with the metadata array positionally matched to the index rows and
carrying dense ordinals (the invariants C4 establishes at build time), the
result list of `retrieve` contains at most `min(k, N)` entries — exactly
`min(k, N)` when no threshold is given — and is strictly descending by score
with exact score ties broken by strictly ascending `chunk_id`.  The result is
a pure function of the inputs, hence deterministic. -/
theorem c1_retrieve_ranked (md : List DocumentChunk) (rows : List (List ℚ))
    (qvec : List ℚ) (k : ℕ) (thr : Option ℚ)
    (hlen : md.length = rows.length) (hdense : denseChunkIds md) :
    (retrieve_results md rows qvec k thr).length ≤ min k rows.length ∧
    (retrieve_results md rows qvec k none).length = min k rows.length ∧
    List.Pairwise resultRank (retrieve_results md rows qvec k thr) := by
  have hS : ∀ p ∈ (List.range rows.length).map
      (fun i : ℕ => ((i : ℤ), dot qvec (rows.getD i []))),
      0 ≤ p.1 ∧ p.1 < (rows.length : ℤ) := by
    intro p hp
    rw [List.mem_map] at hp
    obtain ⟨i, hi, hpe⟩ := hp
    rw [List.mem_range] at hi
    rw [← hpe]
    constructor
    · show (0 : ℤ) ≤ (i : ℤ)
      exact Int.ofNat_nonneg i
    · show (i : ℤ) < (rows.length : ℤ)
      exact_mod_cast hi
  set S : List (ℤ × ℚ) := (List.range rows.length).map
    (fun i : ℕ => ((i : ℤ), dot qvec (rows.getD i []))) with hSdef
  have hperm : List.Perm (List.insertionSort hitLE S) S := List.perm_insertionSort hitLE S
  have hsorted : List.Sorted hitLE (List.insertionSort hitLE S) :=
    List.sorted_insertionSort hitLE S
  have hmem : ∀ p ∈ (List.insertionSort hitLE S).take k,
      0 ≤ p.1 ∧ p.1 < (rows.length : ℤ) := by
    intro p hp
    exact hS p (hperm.mem_iff.mp (List.mem_of_mem_take hp))
  have hnodupS : (S.map Prod.fst).Nodup := by
    rw [hSdef, List.map_map]
    have : (Prod.fst ∘ fun i : ℕ => ((i : ℤ), dot qvec (rows.getD i []))) =
        (fun i : ℕ => (i : ℤ)) := rfl
    rw [this]
    exact List.Nodup.map (fun a b h => by exact_mod_cast h) (List.nodup_range rows.length)
  have hnodup : ((List.insertionSort hitLE S).map Prod.fst).Nodup :=
    ((hperm.map Prod.fst).nodup_iff).mpr hnodupS
  have hnodupT : (((List.insertionSort hitLE S).take k).map Prod.fst).Nodup := by
    rw [List.map_take]
    exact hnodup.sublist (List.take_sublist _ _)
  have hpairT : List.Pairwise (fun a b : ℤ × ℚ => hitLE a b ∧ a.1 ≠ b.1)
      ((List.insertionSort hitLE S).take k) := by
    apply List.Pairwise.and
    · exact hsorted.sublist (List.take_sublist _ _)
    · exact (List.pairwise_map.mp hnodupT)
  -- the threshold-free result list is the mapped top-k list
  have hnone : retrieve_results md rows qvec k none =
      ((List.insertionSort hitLE S).take k).map
        (fun p => mkResult (md.getD p.1.toNat default) p.2) := by
    unfold retrieve_results faiss_search
    rw [← hSdef, build_results_append, build_results_pad, List.append_nil]
    exact build_results_none_map md _ (fun p hp => by
      have := hmem p hp
      omega)
  have hlennone : (retrieve_results md rows qvec k none).length = min k rows.length := by
    rw [hnone, List.length_map, List.length_take, List.length_insertionSort]
    rw [hSdef, List.length_map, List.length_range]
  have hpairnone : List.Pairwise resultRank (retrieve_results md rows qvec k none) := by
    rw [hnone]
    rw [List.pairwise_map]
    apply hpairT.imp_of_mem
    intro a b ha hb hab
    obtain ⟨⟨ha1, ha2⟩, ⟨hb1, hb2⟩⟩ := And.intro (hmem a ha) (hmem b hb)
    obtain ⟨hle, hne⟩ := hab
    have hcid : ∀ p : ℤ × ℚ, 0 ≤ p.1 → p.1 < (rows.length : ℤ) →
        (mkResult (md.getD p.1.toNat default) p.2).chunk_id = p.1.toNat := by
      intro p hp0 hpn
      have hplt : p.1.toNat < md.length := by omega
      show (md.getD p.1.toNat default).chunk_id = p.1.toNat
      rw [List.getD_eq_getElem?_getD, List.getElem?_eq_getElem hplt]
      exact hdense ⟨p.1.toNat, hplt⟩
    rcases hle with hlt | ⟨heq, hle1⟩
    · exact Or.inl hlt
    · refine Or.inr ⟨heq.symm ▸ rfl, ?_⟩
      rw [hcid a ha1 ha2, hcid b hb1 hb2]
      omega
  rcases thr with _ | t
  · exact ⟨le_of_eq hlennone, hlennone, hpairnone⟩
  · rw [c2_threshold_postfilter]
    refine ⟨?_, hlennone, ?_⟩
    · rw [← hlennone]
      exact List.length_filter_le _ _
    · exact hpairnone.sublist (List.filter_sublist _)

/-- Witness for C1: two chunks with equal scores against the query; the
result has `min(5, 2) = 2` entries, tie broken by ascending `chunk_id`. -/
theorem c1_witness :
    (retrieve_results mdSample rowsSample [1] 5 none).length ≤ min 5 rowsSample.length ∧
    (retrieve_results mdSample rowsSample [1] 5 none).length = min 5 rowsSample.length ∧
    List.Pairwise resultRank (retrieve_results mdSample rowsSample [1] 5 none) :=
  c1_retrieve_ranked mdSample rowsSample [1] 5 none (by decide)
    (by intro i; fin_cases i <;> rfl)

/-! ## C6: span monotonicity and coverage -/

theorem sentencePats_ne_nil {pat : List Char} (h : pat ∈ sentencePats) : pat ≠ [] := by
  have hlen := sentencePats_length h
  intro hnil
  rw [hnil] at hlen
  cases hlen

theorem noTerminators_of_bounded {text : List Char}
    (h : ∀ pat ∈ sentencePats, ∀ q, q < text.length → matchAt text pat q = false) :
    noTerminators text := by
  intro pat hpat p
  rcases Nat.lt_or_ge p text.length with hp | hp
  · exact h pat hpat p hp
  · exact matchAt_of_ge (sentencePats_ne_nil hpat) hp

theorem sentenceEnd_of_noTerminators {text : List Char} (h : noTerminators text)
    (ss e : ℤ) : sentenceEnd text ss e = -1 := by
  unfold sentenceEnd
  rw [pyRfind_eq_neg_one ss e (h _ (by simp [sentencePats]))]
  rw [pyRfind_eq_neg_one ss e (h _ (by simp [sentencePats]))]
  rw [pyRfind_eq_neg_one ss e (h _ (by simp [sentencePats]))]
  rw [pyRfind_eq_neg_one ss e (h _ (by simp [sentencePats]))]
  rw [pyRfind_eq_neg_one ss e (h _ (by simp [sentencePats]))]
  rfl

theorem computeEnd_of_noTerminators {text : List Char} (h : noTerminators text)
    (chunkSize : ℕ) (start : ℤ) (hs : 0 ≤ start) :
    computeEnd text chunkSize start = start + chunkSize := by
  unfold computeEnd
  split
  · rw [sentenceEnd_of_noTerminators h]
    rw [if_neg (by omega)]
  · rfl

theorem slice_len_nat (text : List Char) (start C : ℕ) (hlt : start < text.length) :
    (pySlice text (start : ℤ) ((start : ℤ) + C)).length =
      min (start + C) text.length - start := by
  rw [length_pySlice]
  have h1 : (pyNormIdx text.length (start : ℤ) : ℤ) = (start : ℤ) :=
    pyNormIdx_of_nonneg_lt _ _ (by omega) (by exact_mod_cast hlt)
  have h2 : (pyNormIdx text.length ((start : ℤ) + C) : ℤ) =
      min ((start : ℤ) + C) (text.length : ℤ) := by
    unfold pyNormIdx
    rw [if_neg (by omega)]
    omega
  omega

theorem c6_loop_empty (text : List Char) (chunkSize overlap : ℕ) (fn : String) (pg : ℕ)
    (hterm : noTerminators text) (hws : noWhitespace text) (hV : overlap < chunkSize) :
    ∀ (fuel : ℕ) (start : ℕ) (cid : ℕ) (cs : List DocumentChunk),
      chunk_text_loop text chunkSize overlap fn pg fuel (start : ℤ) cid = some cs →
      min (start + chunkSize) text.length - start ≤ 50 →
      cs = [] := by
  intro fuel
  induction fuel with
  | zero =>
    intro start cid cs h _
    cases h
  | succ fuel ih =>
    intro start cid cs h hsmall
    rw [chunk_text_loop] at h
    split at h
    · rename_i hlt
      have hltn : start < text.length := by exact_mod_cast hlt
      rw [computeEnd_of_noTerminators hterm chunkSize (start : ℤ) (by omega)] at h
      rw [pyStrip_of_noWhitespace (fun c hc => hws c (mem_pySlice hc))] at h
      rw [slice_len_nat text start chunkSize hltn] at h
      split at h
      · omega
      · split at h
        · rw [Option.some_inj] at h
          exact h.symm
        · have hcast : (start : ℤ) + chunkSize - overlap =
              ((start + (chunkSize - overlap) : ℕ) : ℤ) := by
            push_cast
            omega
          rw [hcast] at h
          exact ih _ _ _ h (by omega)
    · rw [Option.some_inj] at h
      exact h.symm

theorem c6_loop (text : List Char) (chunkSize overlap : ℕ) (fn : String) (pg : ℕ)
    (hterm : noTerminators text) (hws : noWhitespace text) (hV : overlap < chunkSize) :
    ∀ (fuel : ℕ) (start : ℕ) (cid : ℕ) (cs : List DocumentChunk),
      chunk_text_loop text chunkSize overlap fn pg fuel (start : ℤ) cid = some cs →
      List.Chain' (chunkChain overlap) cs ∧
      (∀ c0, cs.head? = some c0 →
        c0.char_start = (start : ℤ) ∧ c0.char_end = (start : ℤ) + chunkSize) ∧
      (∀ c ∈ cs, ∀ i : ℤ, (start : ℤ) ≤ i → i < c.char_end → coveredBy cs i) := by
  intro fuel
  induction fuel with
  | zero =>
    intro start cid cs h
    cases h
  | succ fuel ih =>
    intro start cid cs h
    rw [chunk_text_loop] at h
    split at h
    · rename_i hlt
      have hltn : start < text.length := by exact_mod_cast hlt
      rw [computeEnd_of_noTerminators hterm chunkSize (start : ℤ) (by omega)] at h
      rw [pyStrip_of_noWhitespace (fun c hc => hws c (mem_pySlice hc))] at h
      have hchunk : mkChunk text chunkSize fn pg cid (start : ℤ) =
          { text := pyStrip (pySlice text (start : ℤ) ((start : ℤ) + chunkSize))
            filename := fn, page_num := pg, chunk_id := cid
            char_start := (start : ℤ), char_end := (start : ℤ) + chunkSize
            excerpt := mkExcerpt
              (pyStrip (pySlice text (start : ℤ) ((start : ℤ) + chunkSize))) } := by
        unfold mkChunk
        rw [computeEnd_of_noTerminators hterm chunkSize (start : ℤ) (by omega)]
      split at h
      · rename_i hemit
        split at h
        · rw [Option.some_inj] at h
          rw [← h, hchunk]
          refine ⟨List.chain'_singleton _, ?_, ?_⟩
          · intro c0 hc0
            rw [List.head?_cons, Option.some_inj] at hc0
            rw [← hc0]
            exact ⟨rfl, rfl⟩
          · intro c hc i hi1 hi2
            rw [List.mem_singleton] at hc
            rw [hc] at hi2
            exact ⟨_, List.mem_singleton_self _, hi1, hi2⟩
        · rw [Option.map_eq_some'] at h
          obtain ⟨rest, hrest, hcs⟩ := h
          have hcast : (start : ℤ) + chunkSize - overlap =
              ((start + (chunkSize - overlap) : ℕ) : ℤ) := by
            push_cast
            omega
          rw [hcast] at hrest
          obtain ⟨ihchain, ihhead, ihcov⟩ := ih _ _ _ hrest
          rw [← hcs, hchunk]
          refine ⟨?_, ?_, ?_⟩
          · rw [List.chain'_cons']
            refine ⟨?_, ihchain⟩
            intro b hb
            obtain ⟨hb1, hb2⟩ := ihhead b hb
            unfold chunkChain
            rw [hb1, hb2]
            refine ⟨by push_cast; omega, by push_cast; omega, by push_cast; omega⟩
          · intro c0 hc0
            rw [List.head?_cons, Option.some_inj] at hc0
            rw [← hc0]
            exact ⟨rfl, rfl⟩
          · intro c hc i hi1 hi2
            by_cases hicase : i < (start : ℤ) + chunkSize
            · exact ⟨_, List.mem_cons_self _ _, hi1, hicase⟩
            · push_neg at hicase
              rcases List.mem_cons.mp hc with rfl | hcrest
              · exact absurd hi2 (not_lt.mpr hicase)
              · have hs2 : ((start + (chunkSize - overlap) : ℕ) : ℤ) ≤ i := by
                  push_cast
                  omega
                obtain ⟨c2, hc2, hc2a, hc2b⟩ := ihcov c hcrest i hs2 hi2
                exact ⟨c2, List.mem_cons_of_mem _ hc2, hc2a, hc2b⟩
      · rename_i hnoemit
        split at h
        · rw [Option.some_inj] at h
          rw [← h]
          refine ⟨List.chain'_nil, ?_, ?_⟩
          · intro c0 hc0
            cases hc0
          · intro c hc
            cases hc
        · have hcast : (start : ℤ) + chunkSize - overlap =
              ((start + (chunkSize - overlap) : ℕ) : ℤ) := by
            push_cast
            omega
          rw [hcast] at h
          have hempty : cs = [] := by
            apply c6_loop_empty text chunkSize overlap fn pg hterm hws hV fuel _ _ _ h
            rw [slice_len_nat text start chunkSize hltn] at hnoemit
            omega
          rw [hempty]
          refine ⟨List.chain'_nil, ?_, ?_⟩
          · intro c0 hc0
            cases hc0
          · intro c hc
            cases hc
    · rw [Option.some_inj] at h
      rw [← h]
      refine ⟨List.chain'_nil, ?_, ?_⟩
      · intro c0 hc0
        cases hc0
      · intro c hc
        cases hc

/-- C6 counterexample: the nonempty ten-character text (with `chunk_size=20 >
overlap=0`) yields zero chunks — its only window strips to 10 characters,
below the 51-character floor — so the union of the emitted spans is empty and
does not cover the text: position 0 is uncovered. -/
theorem c6_counterexample :
    chunk_text 20 0 c6_text "doc.pdf" 1 0 5 = some [] ∧
    0 < c6_text.length ∧
    ¬ coveredBy ((chunk_text 20 0 c6_text "doc.pdf" 1 0 5).getD []) 0 := by
  refine ⟨by decide, by decide, ?_⟩
  intro hcov
  obtain ⟨c, hc, _⟩ := hcov
  have hnil : (chunk_text 20 0 c6_text "doc.pdf" 1 0 5).getD [] =
      ([] : List DocumentChunk) := by decide
  rw [hnil] at hc
  cases hc

/-- C6 (amended): for `chunk_size > overlap ≥ 0` and a text containing no
whitespace and no sentence-terminator occurrence, every terminating
`chunk_text` run emits chunks whose `char_start` and `char_end` are strictly
increasing, with each span starting exactly `overlap` before the previous one
ends (`next.char_start + overlap = prev.char_end`, so consecutive spans
overlap or touch), and the union of the emitted spans covers every position
from 0 up to each chunk's `char_end`.  Coverage of the whole text fails in
general: windows whose trimmed slice is at or below the 50-character floor
(in particular every nonempty text shorter than 51 characters, and trailing
remainders) are dropped. -/
theorem c6_amended_spans (text : List Char) (chunkSize overlap : ℕ) (fn : String)
    (pg : ℕ) (off fuel : ℕ) (cs : List DocumentChunk)
    (hterm : noTerminators text) (hws : noWhitespace text) (hV : overlap < chunkSize)
    (h : chunk_text chunkSize overlap text fn pg off fuel = some cs) :
    List.Chain' (chunkChain overlap) cs ∧
    (∀ c ∈ cs, ∀ i : ℤ, 0 ≤ i → i < c.char_end → coveredBy cs i) := by
  obtain ⟨hchain, _, hcov⟩ :=
    c6_loop text chunkSize overlap fn pg hterm hws hV fuel 0 off cs h
  exact ⟨hchain, fun c hc i hi1 hi2 => hcov c hc i hi1 hi2⟩

/-- Witness for C6 (amended): on the 60-letter text with `chunk_size = 52`,
`overlap = 1`, the emitted chunks are chained and position 51 is covered. -/
theorem c6_witness :
    List.Chain' (chunkChain 1) ((chunk_text 52 1 allA60 "doc.pdf" 1 0 10).getD []) ∧
    coveredBy ((chunk_text 52 1 allA60 "doc.pdf" 1 0 10).getD []) 51 := by
  have h := c6_amended_spans allA60 52 1 "doc.pdf" 1 0 10
    ((chunk_text 52 1 allA60 "doc.pdf" 1 0 10).getD [])
    (noTerminators_of_bounded (by decide)) (by unfold noWhitespace; decide) (by omega) rfl
  refine ⟨h.1, ?_⟩
  refine h.2 (((chunk_text 52 1 allA60 "doc.pdf" 1 0 10).getD []).headD default)
    (by decide) 51 (by decide) (by decide)

